import Mathlib

/-!
Shallow embedding of `src/check.py`, a build-matrix runner: it iterates over a
hard-coded list of (target, features) pairs, prints a status line for each,
and invokes `cargo check` through the operating system's command-execution
facility; if that invocation raises, the error is printed and the process
exits with status 1.

The outcome of each external invocation is modelled by an oracle
`Nat → SysOutcome` giving, for the k-th invocation (0-based), either a raised
error with its printed description or a returned exit code.  A run produces a
trace of events (lines printed to standard output and command strings handed
to the execution facility, in order) together with the process exit status.
-/

namespace Check

/-- The status line printed before each invocation:
`print(f'checking -target={args[0]} --features={args[1]}')`. -/
def statusLine (target features : String) : String :=
  "checking -target=" ++ target ++ " --features=" ++ features

/-- The command string handed to `os.system`:
`f"cargo check --target={target} --features={features}"`. -/
def cmdString (target features : String) : String :=
  "cargo check --target=" ++ target ++ " --features=" ++ features

/-- The hard-coded literal matrix of (target, features) pairs, in source order. -/
def matrix : List (String × String) :=
  [("wasm32-unknown-unknown", "static_ser"),
   ("x86_64-pc-windows-gnu", "static_ser"),
   ("x86_64-unknown-linux-gnu", "static_ser"),
   ("x86_64-apple-darwin", "static_ser"),
   ("wasm32-unknown-unknown", ""),
   ("x86_64-pc-windows-gnu", ""),
   ("x86_64-unknown-linux-gnu", ""),
   ("x86_64-apple-darwin", "")]

/-- The feature-set list: each feature set is paired with every target,
`"static_ser"` first, the empty feature set second. -/
def featureSets : List String := ["static_ser", ""]

/-- The target list, in the order the source lists targets within each
feature-set block. -/
def targets : List String :=
  ["wasm32-unknown-unknown",
   "x86_64-pc-windows-gnu",
   "x86_64-unknown-linux-gnu",
   "x86_64-apple-darwin"]

/-- Outcome of one `os.system` invocation: either an exception is raised
(with the description that `print(e)` would emit) or an exit code is
returned. -/
inductive SysOutcome where
  | raised (msg : String)
  | returned (code : Int)
deriving DecidableEq

/-- One observable event of a run: a line printed to standard output, or a
command string handed to the command-execution facility. -/
inductive Event where
  | printed (line : String)
  | invoked (cmd : String)
deriving DecidableEq

/-- The events produced by one loop iteration before its outcome is known:
the status line is printed, then the command is invoked. -/
def comboEvents (p : String × String) : List Event :=
  [Event.printed (statusLine p.1 p.2), Event.invoked (cmdString p.1 p.2)]

/-- The events of a whole block of iterations in which every invocation
returned. -/
def eventsOf : List (String × String) → List Event
  | [] => []
  | p :: rest => comboEvents p ++ eventsOf rest

/-- The module-level `for` loop of `check.py`, starting at invocation index
`idx` with the remaining combinations: for each combination print the status
line and invoke the command (`check(args[0], args[1])`); if the invocation
raises, print the error and exit with status 1, otherwise ignore the exit
code and continue.  Returns the event trace and the process exit status. -/
def runFrom (oracle : Nat → SysOutcome) : Nat → List (String × String) → List Event × Nat
  | _, [] => ([], 0)
  | idx, p :: rest =>
    match oracle idx with
    | SysOutcome.returned _ =>
        let r := runFrom oracle (idx + 1) rest
        (comboEvents p ++ r.1, r.2)
    | SysOutcome.raised msg =>
        (comboEvents p ++ [Event.printed msg], 1)

/-- A full run of the script over the hard-coded matrix. -/
def run (oracle : Nat → SysOutcome) : List Event × Nat :=
  runFrom oracle 0 matrix

/-- The lines printed to standard output, extracted from an event trace. -/
def stdoutOf (es : List Event) : List String :=
  es.filterMap fun e =>
    match e with
    | Event.printed l => some l
    | Event.invoked _ => none

/-- The command strings handed to the execution facility, extracted from an
event trace. -/
def cmdsOf (es : List Event) : List String :=
  es.filterMap fun e =>
    match e with
    | Event.printed _ => none
    | Event.invoked c => some c

/-- Standard output of a full run. -/
def stdout (oracle : Nat → SysOutcome) : List String :=
  stdoutOf (run oracle).1

/-- The sequence of commands invoked by a full run. -/
def cmds (oracle : Nat → SysOutcome) : List String :=
  cmdsOf (run oracle).1

/-- Exit status of a full run. -/
def exitStatus (oracle : Nat → SysOutcome) : Nat :=
  (run oracle).2

theorem stdoutOf_append (a b : List Event) :
    stdoutOf (a ++ b) = stdoutOf a ++ stdoutOf b := by
  simp [stdoutOf, List.filterMap_append]

theorem cmdsOf_append (a b : List Event) :
    cmdsOf (a ++ b) = cmdsOf a ++ cmdsOf b := by
  simp [cmdsOf, List.filterMap_append]

theorem stdoutOf_eventsOf (l : List (String × String)) :
    stdoutOf (eventsOf l) = l.map (fun p => statusLine p.1 p.2) := by
  induction l with
  | nil => rfl
  | cons p rest ih =>
      simp only [eventsOf, stdoutOf_append, ih, List.map]
      rfl

theorem cmdsOf_eventsOf (l : List (String × String)) :
    cmdsOf (eventsOf l) = l.map (fun p => cmdString p.1 p.2) := by
  induction l with
  | nil => rfl
  | cons p rest ih =>
      simp only [eventsOf, cmdsOf_append, ih, List.map]
      rfl

theorem eventsOf_length (l : List (String × String)) :
    (eventsOf l).length = 2 * l.length := by
  induction l with
  | nil => rfl
  | cons p rest ih =>
      simp [eventsOf, comboEvents, ih]
      omega

theorem matrix_length : matrix.length = 8 := rfl

theorem take_length_add {α : Type} (a b : List α) (n : Nat) :
    (a ++ b).take (a.length + n) = a ++ b.take n := by
  induction a with
  | nil => simp
  | cons x xs ih => simp [List.take, Nat.succ_add, ih]

/-- If the first `k` invocations counted from `idx` all return, the loop on
`combos` produces the events of the first `k` combinations followed by the
run of the remaining combinations from index `idx + k`. -/
theorem runFrom_split (oracle : Nat → SysOutcome) (k idx : Nat)
    (combos : List (String × String)) (hk : k ≤ combos.length)
    (h : ∀ i, i < k → ∃ c, oracle (idx + i) = SysOutcome.returned c) :
    runFrom oracle idx combos =
      (eventsOf (combos.take k) ++ (runFrom oracle (idx + k) (combos.drop k)).1,
       (runFrom oracle (idx + k) (combos.drop k)).2) := by
  induction k generalizing idx combos with
  | zero => simp [eventsOf]
  | succ k ih =>
      cases combos with
      | nil => simp at hk
      | cons p rest =>
          obtain ⟨c, hc⟩ := h 0 (Nat.succ_pos k)
          have hc' : oracle idx = SysOutcome.returned c := by simpa using hc
          have hrest : ∀ i, i < k → ∃ c, oracle (idx + 1 + i) = SysOutcome.returned c := by
            intro i hi
            obtain ⟨c, hci⟩ := h (i + 1) (by omega)
            refine ⟨c, ?_⟩
            have harith : idx + 1 + i = idx + (i + 1) := by omega
            rw [harith]
            exact hci
          have hk' : k ≤ rest.length := by
            simpa using Nat.le_of_succ_le_succ hk
          have hrec := ih (idx + 1) rest hk' hrest
          have harith : idx + 1 + k = idx + (k + 1) := by omega
          rw [harith] at hrec
          simp [runFrom, hc', hrec, eventsOf, List.take, List.drop]

/-- If every invocation over `combos` returns, the loop produces exactly the
events of all combinations and exit status 0. -/
theorem runFrom_all_ok (oracle : Nat → SysOutcome) (idx : Nat)
    (combos : List (String × String))
    (h : ∀ i, i < combos.length → ∃ c, oracle (idx + i) = SysOutcome.returned c) :
    runFrom oracle idx combos = (eventsOf combos, 0) := by
  have := runFrom_split oracle combos.length idx combos (Nat.le_refl _) h
  simpa [List.take_length, List.drop_length, runFrom, eventsOf] using this

/-- If the invocation at relative position `j` raises and the `j` invocations
before it all return, the loop produces the events of the first `j + 1`
combinations, then the printed error description, and exit status 1. -/
theorem runFrom_raise (oracle : Nat → SysOutcome) (idx j : Nat) (msg : String)
    (combos : List (String × String)) (hj : j < combos.length)
    (hraise : oracle (idx + j) = SysOutcome.raised msg)
    (hok : ∀ i, i < j → ∃ c, oracle (idx + i) = SysOutcome.returned c) :
    runFrom oracle idx combos =
      (eventsOf (combos.take (j + 1)) ++ [Event.printed msg], 1) := by
  induction j generalizing idx combos with
  | zero =>
      cases combos with
      | nil => simp at hj
      | cons p rest =>
          have hr : oracle idx = SysOutcome.raised msg := by simpa using hraise
          simp [runFrom, hr, eventsOf, List.take]
  | succ j ih =>
      cases combos with
      | nil => simp at hj
      | cons p rest =>
          obtain ⟨c, hc⟩ := hok 0 (Nat.succ_pos j)
          have hc' : oracle idx = SysOutcome.returned c := by simpa using hc
          have hraise' : oracle (idx + 1 + j) = SysOutcome.raised msg := by
            have harith : idx + 1 + j = idx + (j + 1) := by omega
            rw [harith]
            exact hraise
          have hok' : ∀ i, i < j → ∃ c, oracle (idx + 1 + i) = SysOutcome.returned c := by
            intro i hi
            obtain ⟨c, hci⟩ := hok (i + 1) (by omega)
            refine ⟨c, ?_⟩
            have harith : idx + 1 + i = idx + (i + 1) := by omega
            rw [harith]
            exact hci
          have hj' : j < rest.length := by simpa using Nat.lt_of_succ_lt_succ hj
          have hrec := ih (idx + 1) rest hj' hraise' hok'
          simp [runFrom, hc', hrec, eventsOf, List.take]

/-- The first component of one loop step always begins with the status line
and the invocation of the head combination, whatever the outcome. -/
theorem runFrom_cons_fst (oracle : Nat → SysOutcome) (idx : Nat)
    (p : String × String) (rest : List (String × String)) :
    ∃ tail, (runFrom oracle idx (p :: rest)).1 = comboEvents p ++ tail := by
  cases hc : oracle idx with
  | returned c => exact ⟨(runFrom oracle (idx + 1) rest).1, by simp [runFrom, hc]⟩
  | raised msg => exact ⟨[Event.printed msg], by simp [runFrom, hc]⟩

theorem cmdsOf_comboEvents (p : String × String) :
    cmdsOf (comboEvents p) = [cmdString p.1 p.2] := rfl

theorem stdoutOf_comboEvents (p : String × String) :
    stdoutOf (comboEvents p) = [statusLine p.1 p.2] := rfl

/-- At most one command is invoked per combination. -/
theorem runFrom_cmds_le (oracle : Nat → SysOutcome) (idx : Nat)
    (combos : List (String × String)) :
    (cmdsOf (runFrom oracle idx combos).1).length ≤ combos.length := by
  induction combos generalizing idx with
  | nil => simp [runFrom, cmdsOf]
  | cons p rest ih =>
      cases hc : oracle idx with
      | returned c =>
          have hrec := ih (idx + 1)
          simp only [runFrom, hc, cmdsOf_append, List.length_append,
            cmdsOf_comboEvents, List.length_cons, List.length_nil]
          omega
      | raised msg =>
          simp [runFrom, hc, cmdsOf_append, cmdsOf_comboEvents, cmdsOf,
            List.filterMap]

/-- The loop's behaviour depends only on the oracle's values at the
invocation indices it actually reaches. -/
theorem runFrom_congr (o1 o2 : Nat → SysOutcome) (idx : Nat)
    (combos : List (String × String))
    (h : ∀ i, i < combos.length → o1 (idx + i) = o2 (idx + i)) :
    runFrom o1 idx combos = runFrom o2 idx combos := by
  induction combos generalizing idx with
  | nil => rfl
  | cons p rest ih =>
      have h0 : o1 idx = o2 idx := by simpa using h 0 (Nat.succ_pos _)
      have hrest : ∀ i, i < rest.length → o1 (idx + 1 + i) = o2 (idx + 1 + i) := by
        intro i hi
        have := h (i + 1) (by simpa using Nat.succ_lt_succ hi)
        have harith : idx + 1 + i = idx + (i + 1) := by omega
        rw [harith]
        exact this
      cases hc : o2 idx with
      | returned c => simp [runFrom, h0, hc, ih (idx + 1) hrest]
      | raised msg => simp [runFrom, h0, hc]

theorem drop_head_getD {α : Type} (l : List α) (k : Nat) (d : α)
    (hk : k < l.length) :
    l.drop k = l.getD k d :: l.drop (k + 1) := by
  induction l generalizing k with
  | nil => simp at hk
  | cons x xs ih =>
      cases k with
      | zero => simp [List.getD]
      | succ k =>
          have hk' : k < xs.length := by simpa using Nat.lt_of_succ_lt_succ hk
          simpa [List.getD] using ih k hk'

/-- If the first `k` invocations all return, the trace begins with the events
of the first `k` combinations followed by the status line and invocation of
combination `k`. -/
theorem run_reaches (oracle : Nat → SysOutcome) (k : Nat) (hk : k < 8)
    (h : ∀ i, i < k → ∃ c, oracle i = SysOutcome.returned c) :
    ∃ tail, (run oracle).1 =
      eventsOf (matrix.take k) ++ comboEvents (matrix.getD k ("", "")) ++ tail := by
  have hk8 : k ≤ matrix.length := by rw [matrix_length]; omega
  have h0 : ∀ i, i < k → ∃ c, oracle (0 + i) = SysOutcome.returned c := by
    intro i hi; simpa using h i hi
  have hsplit := runFrom_split oracle k 0 matrix hk8 h0
  have hzk : (0 : Nat) + k = k := Nat.zero_add k
  rw [hzk] at hsplit
  have hdrop := drop_head_getD matrix k ("", "") (by rw [matrix_length]; omega)
  rw [hdrop] at hsplit
  obtain ⟨tail, htail⟩ :=
    runFrom_cons_fst oracle k (matrix.getD k ("", "")) (matrix.drop (k + 1))
  refine ⟨tail, ?_⟩
  rw [run, hsplit]
  simp only [htail, List.append_assoc]

theorem eventsOf_take_length (k : Nat) (hk : k ≤ 8) :
    (eventsOf (matrix.take k)).length = 2 * k := by
  rw [eventsOf_length]
  simp [List.length_take, matrix_length]
  omega

/-- C1: if the k-th invocation (1-based) raises with description `msg` and
the first `k - 1` invocations return, then standard output is exactly the
first `k` status lines followed by the one error line, so `k + 1` lines in
all; exactly `k` commands are invoked, one per combination in order, with
none after the k-th; and the process exit status is 1. -/
theorem raise_at_k_stops (oracle : Nat → SysOutcome) (k : Nat) (msg : String)
    (hk1 : 1 ≤ k) (hk8 : k ≤ 8)
    (hraise : oracle (k - 1) = SysOutcome.raised msg)
    (hok : ∀ i, i < k - 1 → ∃ c, oracle i = SysOutcome.returned c) :
    stdout oracle = (matrix.take k).map (fun p => statusLine p.1 p.2) ++ [msg]
    ∧ (stdout oracle).length = k + 1
    ∧ cmds oracle = (matrix.take k).map (fun p => cmdString p.1 p.2)
    ∧ (cmds oracle).length = k
    ∧ exitStatus oracle = 1 := by
  obtain ⟨j, rfl⟩ : ∃ j, k = j + 1 := ⟨k - 1, by omega⟩
  have hsub : j + 1 - 1 = j := by omega
  rw [hsub] at hraise hok
  have hj : j < matrix.length := by rw [matrix_length]; omega
  have hraise0 : oracle (0 + j) = SysOutcome.raised msg := by simpa using hraise
  have hok0 : ∀ i, i < j → ∃ c, oracle (0 + i) = SysOutcome.returned c := by
    intro i hi; simpa using hok i hi
  have hrun := runFrom_raise oracle 0 j msg matrix hj hraise0 hok0
  have hfst : (run oracle).1 = eventsOf (matrix.take (j + 1)) ++ [Event.printed msg] := by
    rw [run, hrun]
  have hsnd : exitStatus oracle = 1 := by rw [exitStatus, run, hrun]
  have hstdout : stdout oracle =
      (matrix.take (j + 1)).map (fun p => statusLine p.1 p.2) ++ [msg] := by
    rw [stdout, hfst, stdoutOf_append, stdoutOf_eventsOf]
    rfl
  have hcmds : cmds oracle = (matrix.take (j + 1)).map (fun p => cmdString p.1 p.2) := by
    rw [cmds, hfst, cmdsOf_append, cmdsOf_eventsOf]
    simp [cmdsOf]
  refine ⟨hstdout, ?_, hcmds, ?_, hsnd⟩
  · rw [hstdout]
    simp [List.length_take, matrix_length]
    omega
  · rw [hcmds]
    simp [List.length_take, matrix_length]
    omega

/-- An oracle on which the first two invocations return and the third raises
with description "command not found". -/
def wOracle : Nat → SysOutcome := fun i =>
  if i < 2 then SysOutcome.returned 0 else SysOutcome.raised "command not found"

theorem raise_at_k_stops_applied :
    stdout wOracle =
        (matrix.take 3).map (fun p => statusLine p.1 p.2) ++ ["command not found"]
    ∧ (stdout wOracle).length = 3 + 1
    ∧ cmds wOracle = (matrix.take 3).map (fun p => cmdString p.1 p.2)
    ∧ (cmds wOracle).length = 3
    ∧ exitStatus wOracle = 1 :=
  raise_at_k_stops wOracle 3 "command not found" (by omega) (by omega) rfl
    (by
      intro i hi
      have h2 : i < 2 := by omega
      exact ⟨0, by simp [wOracle, h2]⟩)

/-- An oracle on which every invocation returns, with a different exit code
each time. -/
def okOracle : Nat → SysOutcome := fun i => SysOutcome.returned (Int.ofNat i)

/-- C2: if no invocation raises, the process exits with status 0, whatever
the (ignored) exit codes returned across the 8 invocations. -/
theorem all_ok_exit_zero (oracle : Nat → SysOutcome)
    (h : ∀ i, i < 8 → ∃ c, oracle i = SysOutcome.returned c) :
    exitStatus oracle = 0 := by
  have h0 : ∀ i, i < matrix.length → ∃ c, oracle (0 + i) = SysOutcome.returned c := by
    intro i hi
    rw [matrix_length] at hi
    simpa using h i hi
  have hrun := runFrom_all_ok oracle 0 matrix h0
  rw [exitStatus, run, hrun]

theorem all_ok_exit_zero_applied : exitStatus okOracle = 0 :=
  all_ok_exit_zero okOracle (fun i _ => ⟨Int.ofNat i, rfl⟩)

/-- C3: if no invocation raises, exactly one command is invoked per
combination of the matrix, in list order, so 8 invocations in all. -/
theorem all_ok_invocations (oracle : Nat → SysOutcome)
    (h : ∀ i, i < 8 → ∃ c, oracle i = SysOutcome.returned c) :
    cmds oracle = matrix.map (fun p => cmdString p.1 p.2)
    ∧ (cmds oracle).length = 8 := by
  have h0 : ∀ i, i < matrix.length → ∃ c, oracle (0 + i) = SysOutcome.returned c := by
    intro i hi
    rw [matrix_length] at hi
    simpa using h i hi
  have hrun := runFrom_all_ok oracle 0 matrix h0
  have hc : cmds oracle = matrix.map (fun p => cmdString p.1 p.2) := by
    rw [cmds, run, hrun, cmdsOf_eventsOf]
  exact ⟨hc, by rw [hc]; simp [matrix_length]⟩

theorem all_ok_invocations_applied :
    cmds okOracle = matrix.map (fun p => cmdString p.1 p.2)
    ∧ (cmds okOracle).length = 8 :=
  all_ok_invocations okOracle (fun i _ => ⟨Int.ofNat i, rfl⟩)

/-- C4: whenever combination `k` (0-based) is reached, the trace up to that
point is the events of the earlier combinations followed by exactly one
printed status line naming combination k's target and feature set, and then
immediately the invocation of the command for that combination. -/
theorem status_line_before_invoke (oracle : Nat → SysOutcome) (k : Nat)
    (hk : k < 8) (h : ∀ i, i < k → ∃ c, oracle i = SysOutcome.returned c) :
    List.take (2 * k + 2) (run oracle).1 =
      eventsOf (matrix.take k)
        ++ [Event.printed
              (statusLine (matrix.getD k ("", "")).1 (matrix.getD k ("", "")).2),
            Event.invoked
              (cmdString (matrix.getD k ("", "")).1 (matrix.getD k ("", "")).2)] := by
  obtain ⟨tail, htr⟩ := run_reaches oracle k hk h
  rw [htr, List.append_assoc]
  have hlen : (eventsOf (matrix.take k)).length = 2 * k :=
    eventsOf_take_length k (by omega)
  have h22 : 2 * k + 2 = (eventsOf (matrix.take k)).length + 2 := by rw [hlen]
  rw [h22, take_length_add]
  simp [comboEvents, List.take]

theorem status_line_before_invoke_applied :
    List.take (2 * 0 + 2) (run okOracle).1 =
      eventsOf (matrix.take 0)
        ++ [Event.printed
              (statusLine (matrix.getD 0 ("", "")).1 (matrix.getD 0 ("", "")).2),
            Event.invoked
              (cmdString (matrix.getD 0 ("", "")).1 (matrix.getD 0 ("", "")).2)] :=
  status_line_before_invoke okOracle 0 (by omega)
    (fun i hi => absurd hi (Nat.not_lt_zero i))

theorem runFrom_cmds_format (oracle : Nat → SysOutcome) (idx : Nat)
    (combos : List (String × String)) :
    ∃ n, n ≤ combos.length ∧
      cmdsOf (runFrom oracle idx combos).1 =
        (combos.take n).map (fun p => cmdString p.1 p.2) := by
  induction combos generalizing idx with
  | nil => exact ⟨0, by simp [runFrom, cmdsOf]⟩
  | cons p rest ih =>
      cases hc : oracle idx with
      | returned c =>
          obtain ⟨n, hn, hcmds⟩ := ih (idx + 1)
          refine ⟨n + 1, by simpa using Nat.succ_le_succ hn, ?_⟩
          simp [runFrom, hc, cmdsOf_append, cmdsOf_comboEvents, hcmds, List.take]
      | raised msg =>
          refine ⟨1, by simp, ?_⟩
          simp only [runFrom, hc, cmdsOf_append, cmdsOf_comboEvents]
          rfl

/-- C5: every run hands the execution facility exactly the string
`"cargo check --target=" ++ target ++ " --features=" ++ features` for each
combination reached, the target and feature set substituted into two
separate named flags, in matrix order. -/
theorem cmd_format (oracle : Nat → SysOutcome) :
    ∃ n, n ≤ 8 ∧ cmds oracle =
      (matrix.take n).map
        (fun p => "cargo check --target=" ++ p.1 ++ " --features=" ++ p.2) := by
  obtain ⟨n, hn, hcmds⟩ := runFrom_cmds_format oracle 0 matrix
  rw [matrix_length] at hn
  refine ⟨n, hn, ?_⟩
  rw [cmds, run, hcmds]
  rfl

/-- The matrix derived as the Cartesian product of the feature-set list
(outer) with the target list (inner), pairs written (target, feature set). -/
def matrixFromProduct : List (String × String) :=
  (featureSets.map (fun f => targets.map (fun t => (t, f)))).flatten

/-- C6: the hard-coded literal list of 8 pairs equals, as an ordered list,
the Cartesian product of the feature-set list (outer) with the target list
(inner): 4 targets times 2 feature sets. -/
theorem matrix_eq_product :
    matrix = matrixFromProduct
    ∧ matrix.length = 8
    ∧ targets.length = 4
    ∧ featureSets.length = 2 := by
  refine ⟨rfl, rfl, rfl, rfl⟩

/-- C7: if the first `i` invocations (1 ≤ i < 8) return — whatever their
exit codes — the runner goes on to combination `i` (0-based): it prints its
status line, invokes its command, and so performs at least `i + 1`
invocations; a non-zero exit status never stops the iteration. -/
theorem continues_after_return (oracle : Nat → SysOutcome) (i : Nat)
    (h1 : 1 ≤ i) (h8 : i < 8)
    (hret : ∀ j, j < i → ∃ c, oracle j = SysOutcome.returned c) :
    List.take (2 * i + 2) (run oracle).1 =
      eventsOf (matrix.take i)
        ++ [Event.printed
              (statusLine (matrix.getD i ("", "")).1 (matrix.getD i ("", "")).2),
            Event.invoked
              (cmdString (matrix.getD i ("", "")).1 (matrix.getD i ("", "")).2)]
    ∧ i + 1 ≤ (cmds oracle).length := by
  obtain ⟨tail, htr⟩ := run_reaches oracle i h8 hret
  constructor
  · rw [htr, List.append_assoc]
    have hlen : (eventsOf (matrix.take i)).length = 2 * i :=
      eventsOf_take_length i (by omega)
    have h22 : 2 * i + 2 = (eventsOf (matrix.take i)).length + 2 := by rw [hlen]
    rw [h22, take_length_add]
    simp [comboEvents, List.take]
  · rw [cmds, htr, cmdsOf_append, cmdsOf_append, cmdsOf_eventsOf,
      cmdsOf_comboEvents]
    simp [List.length_take, matrix_length]
    omega

theorem continues_after_return_applied :
    (List.take (2 * 1 + 2) (run okOracle).1 =
      eventsOf (matrix.take 1)
        ++ [Event.printed
              (statusLine (matrix.getD 1 ("", "")).1 (matrix.getD 1 ("", "")).2),
            Event.invoked
              (cmdString (matrix.getD 1 ("", "")).1 (matrix.getD 1 ("", "")).2)]
    ∧ 1 + 1 ≤ (cmds okOracle).length) :=
  continues_after_return okOracle 1 (by omega) (by omega)
    (fun j _ => ⟨Int.ofNat j, rfl⟩)

/-- C8: the runner halts for every possible behaviour of the external
invocation, after at most 8 invocations: its trace is a fold over the fixed
8-element matrix. -/
theorem always_halts (oracle : Nat → SysOutcome) :
    (cmds oracle).length ≤ 8 := by
  have h := runFrom_cmds_le oracle 0 matrix
  rw [matrix_length] at h
  rw [cmds, run]
  exact h

/-- C9: for each of the 4 matrix entries whose feature set is empty, the
constructed command still ends with the `--features=` flag followed by an
empty value; the flag is never omitted. -/
theorem empty_features_flag_kept (p : String × String) (hp : p ∈ matrix)
    (hf : p.2 = "") :
    cmdString p.1 p.2 = "cargo check --target=" ++ p.1 ++ " --features="
    ∧ (matrix.filter (fun q => q.2 == "")).length = 4 := by
  constructor
  · rw [cmdString, hf]
    simp
  · rfl

theorem empty_features_flag_kept_applied :
    cmdString "wasm32-unknown-unknown" "" =
      "cargo check --target=" ++ "wasm32-unknown-unknown" ++ " --features="
    ∧ (matrix.filter (fun q => q.2 == "")).length = 4 :=
  empty_features_flag_kept ("wasm32-unknown-unknown", "") (by decide) rfl

/-- An oracle agreeing with `okOracle` on the 8 reachable invocation indices
but differing beyond them. -/
def okOracleTrunc : Nat → SysOutcome := fun i =>
  if i < 8 then SysOutcome.returned (Int.ofNat i) else SysOutcome.raised "unreachable"

/-- C10: the runner is deterministic — two runs whose oracles agree on the
outcome of each of the 8 possible invocations produce the same event trace,
the same standard output, the same command sequence and the same exit
status. -/
theorem deterministic (o1 o2 : Nat → SysOutcome)
    (h : ∀ i, i < 8 → o1 i = o2 i) :
    run o1 = run o2
    ∧ stdout o1 = stdout o2
    ∧ cmds o1 = cmds o2
    ∧ exitStatus o1 = exitStatus o2 := by
  have hc : ∀ i, i < matrix.length → o1 (0 + i) = o2 (0 + i) := by
    intro i hi
    rw [matrix_length] at hi
    simpa using h i hi
  have hr : run o1 = run o2 := by
    rw [run, run]
    exact runFrom_congr o1 o2 0 matrix hc
  exact ⟨hr, by rw [stdout, stdout, hr], by rw [cmds, cmds, hr],
    by rw [exitStatus, exitStatus, hr]⟩

theorem deterministic_applied :
    run okOracle = run okOracleTrunc
    ∧ stdout okOracle = stdout okOracleTrunc
    ∧ cmds okOracle = cmds okOracleTrunc
    ∧ exitStatus okOracle = exitStatus okOracleTrunc :=
  deterministic okOracle okOracleTrunc
    (fun i hi => by simp [okOracle, okOracleTrunc, hi])

end Check
